import Mathlib

/-!
Verification development for the instance-configurator repository.

The development shallowly embeds two JavaScript components:

* InstanceConfig (src/InstanceConfig.js): a two-tier configuration lookup
  over a record store, resolving per-instance overrides with fallback to
  global defaults.
* MCK_MailHelper (src/mckMailHelper.js): an outbound-email sanitizer that
  appends a ".test" suffix to recipient addresses unless a skip rule
  (already processed, whitelisted, authorized group member) applies.

JavaScript strings are modelled as Lean String values; the string
operations the source relies on (indexOf containment, toLowerCase,
first-occurrence replace including the ECMAScript dollar-substitution in
the replacement text, split on comma, regex extraction of the first
bracketed group) are given explicit executable definitions below.
Record-store queries are modelled as first-match scans over row lists,
matching the hasNext/next usage in the source. All functions are total,
which reflects the absence of exceptions on the modelled paths.
-/

namespace Configurator

/-! ## Generic JavaScript string primitives -/

/-- Decides whether the first list is a prefix of the second
(character-by-character scan). -/
def isPrefixL : List Char → List Char → Bool
  | [], _ => true
  | _ :: _, [] => false
  | a :: as, b :: bs => a == b && isPrefixL as bs

/-- JavaScript indexOf-style containment test: true when the needle occurs
as a contiguous substring of the haystack (the empty needle always
occurs, as with indexOf returning 0). -/
def containsL (hay needle : List Char) : Bool :=
  if isPrefixL needle hay then true
  else
    match hay with
    | [] => false
    | _ :: t => containsL t needle

/-- String wrapper for containsL; models hay.indexOf(needle) !== -1. -/
def jsContains (hay needle : String) : Bool :=
  containsL hay.data needle.data

/-- Models String.prototype.toLowerCase for the ASCII range used by the
source (Char.toLower lowercases ASCII letters). -/
def jsToLower (s : String) : String :=
  String.mk (s.data.map Char.toLower)

/-- The backtick character, written by code point to keep the source plain. -/
def backtickChar : Char := Char.ofNat 96

/-- The single-quote character, written by code point to keep the source plain. -/
def quoteChar : Char := Char.ofNat 39

/-- ECMAScript GetSubstitution for a string search pattern: in the
replacement text, a dollar sign followed by dollar inserts a dollar,
followed by ampersand inserts the matched text, followed by backtick
inserts the text before the match, followed by quote inserts the text
after the match; any other dollar sequence is literal. -/
def substDollar : List Char → List Char → List Char → List Char → List Char
  | [], _, _, _ => []
  | c :: rest, b, m, a =>
    if c = '$' then
      match rest with
      | [] => ['$']
      | d :: rest2 =>
        if d = '$' then '$' :: substDollar rest2 b m a
        else if d = '&' then m ++ substDollar rest2 b m a
        else if d = backtickChar then b ++ substDollar rest2 b m a
        else if d = quoteChar then a ++ substDollar rest2 b m a
        else '$' :: d :: substDollar rest2 b m a
    else c :: substDollar rest b m a

/-- Scanning worker for jsReplace: before holds the characters already
passed over; at the first position where the needle matches, the
substituted replacement is emitted and the remainder kept verbatim. -/
def jsReplaceAux (before hay needle repl : List Char) : List Char :=
  if isPrefixL needle hay then
    before ++ substDollar repl before needle (hay.drop needle.length) ++ hay.drop needle.length
  else
    match hay with
    | [] => before
    | c :: rest => jsReplaceAux (before ++ [c]) rest needle repl

/-- Models String.prototype.replace with a string pattern: replaces the
first occurrence of the pattern, applying dollar substitution to the
replacement text; returns the string unchanged when the pattern does not
occur. -/
def jsReplace (s pattern replacement : String) : String :=
  String.mk (jsReplaceAux [] s.data pattern.data replacement.data)

/-- Splitting worker for jsSplitComma, with the current piece accumulated
in reverse. -/
def splitCommaAux : List Char → List Char → List (List Char)
  | [], acc => [acc.reverse]
  | c :: rest, acc =>
    if c = ',' then acc.reverse :: splitCommaAux rest []
    else splitCommaAux rest (c :: acc)

/-- Models String.prototype.split with a comma separator (for a nonempty
input string, as the source guards emptiness before splitting). -/
def jsSplitComma (s : String) : List String :=
  (splitCommaAux s.data []).map String.mk

/-- Joining worker for a comma-separated join. -/
def joinCommaL : List (List Char) → List Char
  | [] => []
  | [x] => x
  | x :: xs => x ++ ',' :: joinCommaL xs

/-- Models Array.prototype.join with a comma separator. -/
def joinComma (l : List String) : String :=
  String.mk (joinCommaL (l.map String.data))

/-! ## InstanceConfig (src/InstanceConfig.js)

Rows of the two queried tables. A reference or key field can be empty
(null), which the source treats as an ordinary literal value, so those
fields are Option String; the queried value fields are the stored
strings. -/

/-- Row of the x_448357_instanc_0_property_scope table: an
instance-specific override (instance reference, key of the referenced
property, value). -/
structure PropertyScopeRow where
  instanceRef : Option String
  key : Option String
  value : String
deriving DecidableEq

/-- Row of the x_448357_instanc_0_property table: a global default
(key, default value). -/
structure PropertyRow where
  key : Option String
  default_value : String
deriving DecidableEq

/-- State of an InstanceConfig object after construction: the unique id of
the loaded instance record (none when the instance lookup found no row)
together with the record store contents consulted by the queries. -/
structure InstanceConfig where
  instanceSysId : Option String
  property_scope : List PropertyScopeRow
  property : List PropertyRow

/-- Query predicate of the override lookup: the row matches when its
instance reference equals the loaded instance id and its referenced key
equals the requested key (addQuery on instance and property.key). -/
def overrideMatches (c : InstanceConfig) (key : Option String) (row : PropertyScopeRow) : Bool :=
  row.instanceRef == c.instanceSysId && row.key == key

/-- Query predicate of the default lookup: the row matches when its key
equals the requested key (addQuery on key). -/
def defaultMatches (key : Option String) (row : PropertyRow) : Bool :=
  row.key == key

/-- Models InstanceConfig._lookup: queries the property_scope table for
the first row matching (loaded instance, key) and returns its value
field, or null when the result set is empty. -/
def InstanceConfig._lookup (c : InstanceConfig) (key : Option String) : Option String :=
  (c.property_scope.find? (overrideMatches c key)).map (·.value)

/-- Models InstanceConfig._getDefault: queries the property table for the
first row matching the key and returns its default_value field, or null
when the result set is empty. -/
def InstanceConfig._getDefault (c : InstanceConfig) (key : Option String) : Option String :=
  (c.property.find? (defaultMatches key)).map (·.default_value)

/-- Models InstanceConfig.getKey: returns the instance-specific value when
the override lookup produced a non-null value, and the default lookup
result otherwise. -/
def InstanceConfig.getKey (c : InstanceConfig) (key : Option String) : Option String :=
  match c._lookup key with
  | some value => some value
  | none => c._getDefault key

/-! ## MCK_MailHelper (src/mckMailHelper.js) -/

/-- The fixed suffix marker appended to sanitized addresses
(MCK_MailHelper._emailModifier). -/
def _emailModifier : String := ".test"

/-- Scans the tail after an opening angle bracket up to the first closing
bracket; none when no closing bracket follows (the greedy bracket-free
run of the regex must be terminated by a closing bracket). -/
def takeToGt : List Char → Option (List Char)
  | [] => none
  | c :: cs => if c = '>' then some [] else (takeToGt cs).map (c :: ·)

/-- First match of the regex for an angle-bracketed group: the capture is
the text between the first opening bracket that has a later closing
bracket and the first closing bracket after it; none when the regex does
not match. When the first opening bracket has no later closing bracket,
no later opening bracket has one either, so the scan stops there. -/
def findWrapMatch : List Char → Option (List Char)
  | [] => none
  | c :: cs => if c = '<' then takeToGt cs else findWrapMatch cs

/-- Models MCK_MailHelper._extractEmailAddress: the bracketed capture when
the regex matches, and the whole string otherwise. -/
def _extractEmailAddress (emailString : String) : String :=
  match findWrapMatch emailString.data with
  | some inner => String.mk inner
  | none => emailString

/-- Models MCK_MailHelper._shouldSkipModification: skip when the address
contains the suffix marker (already modified) or when the lowercased
address occurs inside the whitelist string (indexOf containment). -/
def _shouldSkipModification (emailAddress receivingAddresses : String) : Bool :=
  let isAlreadyModified := jsContains emailAddress _emailModifier
  let isWhitelisted := jsContains receivingAddresses (jsToLower emailAddress)
  isAlreadyModified || isWhitelisted

/-- Models MCK_MailHelper.modifyRecipient: with a truthy (nonempty)
extracted address, replace its first occurrence in the original string by
the address followed by the suffix marker; otherwise append the suffix
marker to the whole string. -/
def modifyRecipient (originalEmailAddress separatedEmail : String) : String :=
  if separatedEmail ≠ "" then
    jsReplace originalEmailAddress separatedEmail (separatedEmail ++ _emailModifier)
  else
    originalEmailAddress ++ _emailModifier

/-- Row of the sys_user table as consulted by the source: the email field
queried by exact match and the sys_id handed to the user-object lookup. -/
structure UserRow where
  email : String
  sys_id : String
deriving DecidableEq

/-- External collaborators of MCK_MailHelper: the two system properties
read by the helper (none models an absent property), the sys_user table,
and the user-object directory mapping a sys_id to the list of group ids
the user is a member of (gs.getUserByID composed with isMemberOf). -/
structure MailStore where
  receivingAddressesProp : Option String
  receivingGroupIdsProp : Option String
  sys_user : List UserRow
  userById : List (String × List String)

/-- Lookup of a user object by sys_id (gs.getUserByID), yielding the group
membership list of the user, or none when the platform returns no user. -/
def lookupById : List (String × List String) → String → Option (List String)
  | [], _ => none
  | (i, gs) :: rest, sysId => if i == sysId then some gs else lookupById rest sysId

/-- Membership test of a user (given by its membership list) in one group
(user.isMemberOf). -/
def isMemberOf (memberships : List String) (groupId : String) : Bool :=
  memberships.contains groupId

/-- The membership loop of _isUserInAuthorizedGroup: walks the configured
group ids in order and returns true at the first one the user is a member
of. -/
def groupLoop (memberships : List String) : List String → Bool
  | [] => false
  | g :: rest => if isMemberOf memberships g then true else groupLoop memberships rest

/-- Instrumented membership loop: additionally counts the isMemberOf
calls performed, exhibiting the short-circuit at the first match. -/
def groupLoopE (memberships : List String) : List String → Bool × Nat
  | [] => (false, 0)
  | g :: rest =>
    if isMemberOf memberships g then (true, 1)
    else
      let r := groupLoopE memberships rest
      (r.1, r.2 + 1)

/-- Models MCK_MailHelper._isUserInAuthorizedGroup: find the first
sys_user row whose email equals the extracted address (userRecord.get);
without one the rule does not apply; with one, resolve the user object by
sys_id and, if present, run the membership loop over the configured group
ids. -/
def _isUserInAuthorizedGroup (st : MailStore) (emailAddress : String)
    (receivingGroupIds : List String) : Bool :=
  match st.sys_user.find? (fun row => row.email == emailAddress) with
  | none => false
  | some userRecord =>
    match lookupById st.userById userRecord.sys_id with
    | none => false
    | some user => groupLoop user receivingGroupIds

/-- Models MCK_MailHelper._getReceivingAddresses: the whitelist property
lowercased, or the empty string when the property is absent or empty
(falsy). -/
def _getReceivingAddresses (st : MailStore) : String :=
  match st.receivingAddressesProp with
  | some addresses => if addresses ≠ "" then jsToLower addresses else ""
  | none => ""

/-- Models MCK_MailHelper._getReceivingGroupIds: the group-id property
split on commas, or the empty list when the property is absent or empty
(falsy). -/
def _getReceivingGroupIds (st : MailStore) : List String :=
  match st.receivingGroupIdsProp with
  | some groupIds => if groupIds ≠ "" then jsSplitComma groupIds else []
  | none => []

/-- Models MCK_MailHelper._processRecipient: extract the address, return
the recipient unchanged when _shouldSkipModification or
_isUserInAuthorizedGroup applies, and modify it otherwise. -/
def _processRecipient (st : MailStore) (userEmail receivingAddresses : String)
    (receivingGroupIds : List String) : String :=
  let extractedEmail := _extractEmailAddress userEmail
  if _shouldSkipModification extractedEmail receivingAddresses then userEmail
  else if _isUserInAuthorizedGroup st extractedEmail receivingGroupIds then userEmail
  else modifyRecipient userEmail extractedEmail

/-- Instrumented _processRecipient: additionally counts the invocations
of the user-directory rule (_isUserInAuthorizedGroup), which the source
reaches only after both earlier skip checks failed. -/
def _processRecipientE (st : MailStore) (userEmail receivingAddresses : String)
    (receivingGroupIds : List String) : String × Nat :=
  let extractedEmail := _extractEmailAddress userEmail
  if _shouldSkipModification extractedEmail receivingAddresses then (userEmail, 0)
  else if _isUserInAuthorizedGroup st extractedEmail receivingGroupIds then (userEmail, 1)
  else (modifyRecipient userEmail extractedEmail, 1)

/-- Models MCK_MailHelper.addTestToAddresses: the empty string for a null
or empty recipient list; otherwise read the two configuration properties
once, process every recipient, and join the results with commas. -/
def addTestToAddresses (st : MailStore) (recipients : Option (List String)) : String :=
  match recipients with
  | none => ""
  | some rs =>
    if rs.length == 0 then ""
    else
      let receivingAddresses := _getReceivingAddresses st
      let receivingGroupIds := _getReceivingGroupIds st
      joinComma (rs.map (fun r => _processRecipient st r receivingAddresses receivingGroupIds))

/-- Instrumented addTestToAddresses: additionally returns the number of
configuration properties read and the total number of user-directory rule
invocations (zero of each on the early-return path). -/
def addTestToAddressesE (st : MailStore) (recipients : Option (List String)) :
    String × Nat × Nat :=
  match recipients with
  | none => ("", 0, 0)
  | some rs =>
    if rs.length == 0 then ("", 0, 0)
    else
      let receivingAddresses := _getReceivingAddresses st
      let receivingGroupIds := _getReceivingGroupIds st
      let processed := rs.map (fun r => _processRecipientE st r receivingAddresses receivingGroupIds)
      (joinComma (processed.map Prod.fst), 2, (processed.map Prod.snd).sum)

/-! ## Concrete stores used by counterexamples and witnesses -/

/-- Store with no configured properties, no users and no groups. -/
def plainStore : MailStore :=
  { receivingAddressesProp := none
    receivingGroupIdsProp := none
    sys_user := []
    userById := [] }

/-- Store whose whitelist property is the single entry john@x.com. -/
def wlStoreJohn : MailStore :=
  { receivingAddressesProp := some "john@x.com"
    receivingGroupIdsProp := none
    sys_user := []
    userById := [] }

/-- Store whose whitelist property is the single entry ajohn@x.com. -/
def wlStoreAJohn : MailStore :=
  { receivingAddressesProp := some "ajohn@x.com"
    receivingGroupIdsProp := none
    sys_user := []
    userById := [] }

/-- Store with one user u@x.com in group g1, and no whitelist. -/
def groupStore : MailStore :=
  { receivingAddressesProp := none
    receivingGroupIdsProp := some "g0,g1,g2"
    sys_user := [{ email := "u@x.com", sys_id := "id1" }]
    userById := [("id1", ["g1"])] }

/-- Configuration state with one override row and one default row, used
to witness the resolution order. -/
def cfgW : InstanceConfig :=
  { instanceSysId := some "inst1"
    property_scope := [{ instanceRef := some "inst1", key := some "k", value := "ov" }]
    property := [{ key := some "k", default_value := "dv" },
                 { key := some "d", default_value := "dd" }] }

/-- Well-shaped recipient for the idempotence property: comma-free and
dollar-free, and either bare (the bracket regex does not match) or in
canonical wrapped form with the extracted address occurring first at its
bracketed position. -/
def GoodRecipient (r : String) : Prop :=
  ',' ∉ r.data ∧ '$' ∉ r.data ∧
    (findWrapMatch r.data = none ∨
      ∃ pre inner post, r.data = pre ++ '<' :: inner ++ '>' :: post ∧
        '<' ∉ pre ∧ '>' ∉ inner ∧
        ∀ i < pre.length + 1, isPrefixL inner (r.data.drop i) = false)

/-! ## Generic lemmas about the string primitives -/

theorem isPrefixL_iff (n h : List Char) : isPrefixL n h = true ↔ ∃ t, h = n ++ t := by
  induction n generalizing h with
  | nil => simp [isPrefixL]
  | cons a as ih =>
    cases h with
    | nil =>
      simp only [isPrefixL, List.cons_append]
      constructor
      · intro hc; cases hc
      · rintro ⟨t, ht⟩; cases ht
    | cons b bs =>
      simp only [isPrefixL, Bool.and_eq_true, beq_iff_eq, ih, List.cons_append]
      constructor
      · rintro ⟨rfl, t, rfl⟩; exact ⟨t, rfl⟩
      · rintro ⟨t, ht⟩
        injection ht with h1 h2
        exact ⟨h1.symm, t, h2⟩

theorem isPrefixL_append (n t : List Char) : isPrefixL n (n ++ t) = true :=
  (isPrefixL_iff n (n ++ t)).2 ⟨t, rfl⟩

theorem containsL_nil_eq (n : List Char) : containsL [] n = isPrefixL n [] := by
  rw [containsL]
  split
  · simp_all
  · simp_all

theorem containsL_cons_eq (c : Char) (t n : List Char) :
    containsL (c :: t) n = (isPrefixL n (c :: t) || containsL t n) := by
  rw [containsL]
  split
  · simp_all
  · simp_all

theorem containsL_iff (h n : List Char) :
    containsL h n = true ↔ ∃ u v, h = u ++ n ++ v := by
  induction h with
  | nil =>
    rw [containsL_nil_eq, isPrefixL_iff]
    constructor
    · rintro ⟨t, ht⟩; exact ⟨[], t, by simpa using ht⟩
    · rintro ⟨u, v, huv⟩
      refine ⟨v, ?_⟩
      rcases List.append_eq_nil.1 huv.symm with ⟨h1, h2⟩
      rcases List.append_eq_nil.1 h1 with ⟨rfl, rfl⟩
      simpa using h2.symm
  | cons c t ih =>
    rw [containsL_cons_eq, Bool.or_eq_true, isPrefixL_iff, ih]
    constructor
    · rintro (⟨t2, ht⟩ | ⟨u, v, huv⟩)
      · exact ⟨[], t2, by simpa using ht⟩
      · exact ⟨c :: u, v, by simp [huv]⟩
    · rintro ⟨u, v, huv⟩
      cases u with
      | nil => exact Or.inl ⟨v, by simpa using huv⟩
      | cons c2 u2 =>
        injection huv with h1 h2
        exact Or.inr ⟨u2, v, h2⟩

theorem containsL_nil_needle (h : List Char) : containsL h [] = true := by
  cases h with
  | nil => rw [containsL_nil_eq]; rfl
  | cons c t => rw [containsL_cons_eq]; simp [isPrefixL]

/-! ## Theorems: InstanceConfig resolution -/

theorem getKey_eq_none_iff (c : InstanceConfig) (key : Option String) :
    c.getKey key = none ↔
      (∀ row ∈ c.property_scope, overrideMatches c key row = false) ∧
      (∀ row ∈ c.property, defaultMatches key row = false) := by
  unfold InstanceConfig.getKey InstanceConfig._lookup InstanceConfig._getDefault
  constructor
  · intro hk
    split at hk
    · exact absurd hk (by simp)
    · next hl =>
      have h1 := List.find?_eq_none.1 (Option.map_eq_none.1 hl)
      have h2 := List.find?_eq_none.1 (Option.map_eq_none.1 hk)
      exact ⟨fun row hr => by simpa using h1 row hr, fun row hr => by simpa using h2 row hr⟩
  · rintro ⟨h1, h2⟩
    have hl : c.property_scope.find? (overrideMatches c key) = none :=
      List.find?_eq_none.2 fun row hr => by simp [h1 row hr]
    have hd : c.property.find? (defaultMatches key) = none :=
      List.find?_eq_none.2 fun row hr => by simp [h2 row hr]
    simp [hl, hd]

/-- Claim C1: getKey returns the value of the first property_scope row
matching (loaded instance, key) when one exists, regardless of the
default table; otherwise the value of the first matching property row
when one exists; otherwise the null marker. Totality of the definition
reflects that no key raises. -/
theorem getKey_resolution (c : InstanceConfig) (key : Option String) :
    ((∃ row ∈ c.property_scope, overrideMatches c key row = true) →
      ∃ row ∈ c.property_scope, overrideMatches c key row = true ∧
        c.getKey key = some row.value)
  ∧ ((∀ row ∈ c.property_scope, overrideMatches c key row = false) →
      ((∃ row ∈ c.property, defaultMatches key row = true) →
        ∃ row ∈ c.property, defaultMatches key row = true ∧
          c.getKey key = some row.default_value)
      ∧ ((∀ row ∈ c.property, defaultMatches key row = false) →
        c.getKey key = none)) := by
  constructor
  · rintro ⟨row, hmem, hrow⟩
    have hs : (c.property_scope.find? (overrideMatches c key)).isSome :=
      List.find?_isSome.2 ⟨row, hmem, hrow⟩
    obtain ⟨r0, hr0⟩ := Option.isSome_iff_exists.1 hs
    refine ⟨r0, List.mem_of_find?_eq_some hr0, List.find?_some hr0, ?_⟩
    unfold InstanceConfig.getKey InstanceConfig._lookup
    simp [hr0]
  · intro hover
    have hl : c.property_scope.find? (overrideMatches c key) = none :=
      List.find?_eq_none.2 fun row hr => by simp [hover row hr]
    constructor
    · rintro ⟨row, hmem, hrow⟩
      have hs : (c.property.find? (defaultMatches key)).isSome :=
        List.find?_isSome.2 ⟨row, hmem, hrow⟩
      obtain ⟨r0, hr0⟩ := Option.isSome_iff_exists.1 hs
      refine ⟨r0, List.mem_of_find?_eq_some hr0, List.find?_some hr0, ?_⟩
      unfold InstanceConfig.getKey InstanceConfig._lookup InstanceConfig._getDefault
      simp [hl, hr0]
    · intro hdef
      exact (getKey_eq_none_iff c key).2 ⟨hover, hdef⟩

/-- Witness for C1 on a concrete store: the override wins for key k even
though a default for k exists, and an unmatched key resolves to none. -/
theorem getKey_resolution_witness :
    cfgW.getKey (some "k") = some "ov" ∧ cfgW.getKey (some "zz") = none := by
  constructor
  · obtain ⟨row, hmem, hrow, hval⟩ :=
      (getKey_resolution cfgW (some "k")).1 ⟨{ instanceRef := some "inst1", key := some "k", value := "ov" }, by decide, by decide⟩
    have : row = { instanceRef := some "inst1", key := some "k", value := "ov" } := by
      simpa [cfgW] using hmem
    rw [hval, this]
  · exact ((getKey_resolution cfgW (some "zz")).2 (by decide)).2 (by decide)

/-- Claim C6: with a null key or an empty-string key, the lookup runs the
same two equality queries against that literal key value and returns the
null marker exactly when no row with that literal key matches; totality
of the definition reflects that neither input raises. -/
theorem getKey_literal_null_empty (c : InstanceConfig) :
    (c.getKey none = none ↔
      (∀ row ∈ c.property_scope, overrideMatches c none row = false) ∧
      (∀ row ∈ c.property, defaultMatches none row = false))
  ∧ (c.getKey (some "") = none ↔
      (∀ row ∈ c.property_scope, overrideMatches c (some "") row = false) ∧
      (∀ row ∈ c.property, defaultMatches (some "") row = false)) :=
  ⟨getKey_eq_none_iff c none, getKey_eq_none_iff c (some "")⟩

/-! ## Theorems: recipient sanitizer, skip rules -/

theorem addTest_singleton (st : MailStore) (r : String) :
    addTestToAddresses st (some [r]) =
      _processRecipient st r (_getReceivingAddresses st) (_getReceivingGroupIds st) := rfl

theorem skip_of_already (e wl : String) (h : jsContains e _emailModifier = true) :
    _shouldSkipModification e wl = true := by
  unfold _shouldSkipModification
  simp [h]

theorem skip_of_empty_extracted (wl : String) : _shouldSkipModification "" wl = true := by
  unfold _shouldSkipModification
  have h : jsContains wl (jsToLower "") = true := containsL_nil_needle wl.data
  simp [h]

/-- Claim C5: a recipient whose extracted address already contains the
suffix marker is returned completely unchanged, whatever the whitelist,
group configuration and store contents; in particular a full
addTestToAddresses call on such a single recipient returns it verbatim. -/
theorem already_processed_unchanged (st : MailStore) (receivingAddresses : String)
    (receivingGroupIds : List String) (recipient : String)
    (h : jsContains (_extractEmailAddress recipient) _emailModifier = true) :
    _processRecipient st recipient receivingAddresses receivingGroupIds = recipient ∧
    addTestToAddresses st (some [recipient]) = recipient := by
  have hp : ∀ wl gids, _processRecipient st recipient wl gids = recipient := by
    intro wl gids
    unfold _processRecipient
    simp [skip_of_already _ wl h]
  exact ⟨hp _ _, by rw [addTest_singleton]; exact hp _ _⟩

/-- Witness for C5 at the concrete example of the claim. -/
theorem already_processed_unchanged_witness :
    _processRecipient plainStore "a@x.com.test" "" [] = "a@x.com.test" ∧
    addTestToAddresses plainStore (some ["a@x.com.test"]) = "a@x.com.test" :=
  already_processed_unchanged plainStore "" [] "a@x.com.test" (by decide)

/-- Claim C9: a recipient whose extracted address is empty is always left
unchanged, for every store and whitelist configuration, because the
indexOf containment of the empty lowercased address in the whitelist
string always succeeds, so the whitelist skip applies unconditionally. -/
theorem empty_extracted_unchanged (st : MailStore) (receivingAddresses : String)
    (receivingGroupIds : List String) (recipient : String)
    (h : _extractEmailAddress recipient = "") :
    _processRecipient st recipient receivingAddresses receivingGroupIds = recipient ∧
    addTestToAddresses st (some [recipient]) = recipient := by
  have hp : ∀ wl gids, _processRecipient st recipient wl gids = recipient := by
    intro wl gids
    unfold _processRecipient
    rw [h]
    simp [skip_of_empty_extracted wl]
  exact ⟨hp _ _, by rw [addTest_singleton]; exact hp _ _⟩

/-- Witness for C9 on the wrapped form with empty brackets, against a
store whose whitelist is nonempty. -/
theorem empty_extracted_unchanged_witness :
    _processRecipient wlStoreJohn "Name <>" (_getReceivingAddresses wlStoreJohn) [] = "Name <>" ∧
    addTestToAddresses wlStoreJohn (some ["Name <>"]) = "Name <>" :=
  empty_extracted_unchanged wlStoreJohn (_getReceivingAddresses wlStoreJohn) [] "Name <>" (by decide)

/-- Claim C7: a null recipient list and an empty recipient list both
yield the empty string, on the early-return path that reads no
configuration property and invokes no user-directory rule. -/
theorem empty_recipient_list (st : MailStore) :
    addTestToAddresses st none = "" ∧ addTestToAddresses st (some []) = "" ∧
    addTestToAddressesE st none = ("", 0, 0) ∧ addTestToAddressesE st (some []) = ("", 0, 0) :=
  ⟨rfl, rfl, rfl, rfl⟩

/-- Counterexample to claim C2 as stated: with the whitelist string
john@x.com, the recipient ajohn@x.com is not left unchanged but gets the
suffix, because the code tests containment of the address inside the
whitelist string, and the longer address does not occur there. -/
theorem whitelist_direction_cex :
    addTestToAddresses wlStoreJohn (some ["ajohn@x.com"]) = "ajohn@x.com.test" ∧
    addTestToAddresses wlStoreJohn (some ["ajohn@x.com"]) ≠ "ajohn@x.com" :=
  ⟨by decide, by decide⟩

/-- Claim C2 (amended): the whitelist skip tests substring containment of
the lowercased address inside the configured whitelist string, so the
false positive runs in the opposite direction: a whitelist string
ajohn@x.com also exempts the address john@x.com. -/
theorem whitelist_substring_semantics :
    (∀ emailAddress receivingAddresses : String,
      _shouldSkipModification emailAddress receivingAddresses = true ↔
        ((∃ u v, emailAddress.data = u ++ _emailModifier.data ++ v) ∨
         (∃ u v, receivingAddresses.data = u ++ (jsToLower emailAddress).data ++ v)))
  ∧ addTestToAddresses wlStoreAJohn (some ["john@x.com"]) = "john@x.com" := by
  constructor
  · intro e wl
    simp only [_shouldSkipModification, jsContains, Bool.or_eq_true, containsL_iff]
  · decide

/-! ## Theorems: rule ordering and the user-directory rule -/

theorem groupLoop_eq_groupLoopE (m gids : List String) :
    groupLoop m gids = (groupLoopE m gids).1 := by
  induction gids with
  | nil => rfl
  | cons g rest ih =>
    by_cases h : isMemberOf m g <;> simp [groupLoop, groupLoopE, h, ih]

theorem groupLoopE_first_match (m pre : List String) (g : String) (suf : List String)
    (hpre : ∀ x ∈ pre, isMemberOf m x = false) (hg : isMemberOf m g = true) :
    groupLoopE m (pre ++ g :: suf) = (true, pre.length + 1) := by
  induction pre with
  | nil => simp [groupLoopE, hg]
  | cons p ps ih =>
    have hp := hpre p (by simp)
    have ihp := ih fun x hx => hpre x (by simp [hx])
    simp [groupLoopE, hp, ihp]

/-- Claim C4: the skip rules run in the fixed order already-processed and
whitelist first (inside one check), then the user-directory rule; the
directory rule is invoked exactly once when the first check fails and
never otherwise, so at most once per recipient; without a sys_user row
whose email field equals the extracted address exactly, the recipient is
modified; with a matching user whose memberships include some configured
group, the recipient is unchanged and the membership loop stops at the
first matching group. -/
theorem rule_order_and_lookup (st : MailStore) (wl : String) (gids : List String) (r : String) :
    ((_processRecipientE st r wl gids).1 = _processRecipient st r wl gids)
  ∧ ((_processRecipientE st r wl gids).2 ≤ 1)
  ∧ (_shouldSkipModification (_extractEmailAddress r) wl = true →
      _processRecipientE st r wl gids = (r, 0))
  ∧ (_shouldSkipModification (_extractEmailAddress r) wl = false →
      (_processRecipientE st r wl gids).2 = 1)
  ∧ (_shouldSkipModification (_extractEmailAddress r) wl = false →
      st.sys_user.find? (fun row => row.email == _extractEmailAddress r) = none →
      _processRecipient st r wl gids = modifyRecipient r (_extractEmailAddress r))
  ∧ (∀ u memberships pre g suf,
      _shouldSkipModification (_extractEmailAddress r) wl = false →
      st.sys_user.find? (fun row => row.email == _extractEmailAddress r) = some u →
      lookupById st.userById u.sys_id = some memberships →
      gids = pre ++ g :: suf →
      isMemberOf memberships g = true →
      (∀ x ∈ pre, isMemberOf memberships x = false) →
      _processRecipient st r wl gids = r ∧
      groupLoopE memberships gids = (true, pre.length + 1)) := by
  refine ⟨?_, ?_, ?_, ?_, ?_, ?_⟩
  · by_cases h1 : _shouldSkipModification (_extractEmailAddress r) wl <;>
      by_cases h2 : _isUserInAuthorizedGroup st (_extractEmailAddress r) gids <;>
      simp [_processRecipient, _processRecipientE, h1, h2]
  · by_cases h1 : _shouldSkipModification (_extractEmailAddress r) wl <;>
      by_cases h2 : _isUserInAuthorizedGroup st (_extractEmailAddress r) gids <;>
      simp [_processRecipientE, h1, h2]
  · intro h
    simp [_processRecipientE, h]
  · intro h
    by_cases h2 : _isUserInAuthorizedGroup st (_extractEmailAddress r) gids <;>
      simp [_processRecipientE, h, h2]
  · intro h hf
    have hg : _isUserInAuthorizedGroup st (_extractEmailAddress r) gids = false := by
      unfold _isUserInAuthorizedGroup
      simp [hf]
    simp [_processRecipient, h, hg]
  · intro u memberships pre g suf h hf hl hgids hg hpre
    have hgl : groupLoopE memberships gids = (true, pre.length + 1) := by
      rw [hgids]
      exact groupLoopE_first_match _ _ _ _ hpre hg
    have hgrp : _isUserInAuthorizedGroup st (_extractEmailAddress r) gids = true := by
      unfold _isUserInAuthorizedGroup
      simp [hf, hl, groupLoop_eq_groupLoopE, hgl]
    refine ⟨?_, hgl⟩
    simp [_processRecipient, h, hgrp]

/-- Witness for C4 against the concrete group store: the user u@x.com,
member of g1 only, is exempted with the membership loop stopping after
the second configured group. -/
theorem rule_order_and_lookup_witness :
    _processRecipient groupStore "u@x.com" "" ["g0", "g1", "g2"] = "u@x.com" ∧
    groupLoopE ["g1"] ["g0", "g1", "g2"] = (true, 2) := by
  have h := (rule_order_and_lookup groupStore "" ["g0", "g1", "g2"] "u@x.com").2.2.2.2.2
    ⟨"u@x.com", "id1"⟩ ["g1"] ["g0"] "g1" ["g2"]
    (by decide) (by decide) (by decide) rfl (by decide) (by decide)
  simpa using h

/-! ## Lemmas about dollar substitution, extraction and replacement -/

theorem substDollar_cons (c : Char) (rest b m a : List Char) :
    substDollar (c :: rest) b m a =
      if c = '$' then
        match rest with
        | [] => ['$']
        | d :: rest2 =>
          if d = '$' then '$' :: substDollar rest2 b m a
          else if d = '&' then m ++ substDollar rest2 b m a
          else if d = backtickChar then b ++ substDollar rest2 b m a
          else if d = quoteChar then a ++ substDollar rest2 b m a
          else '$' :: d :: substDollar rest2 b m a
      else c :: substDollar rest b m a := by
  rw [substDollar.eq_def]

theorem substDollar_cons_ne (c : Char) (rest b m a : List Char) (hc : c ≠ '$') :
    substDollar (c :: rest) b m a = c :: substDollar rest b m a := by
  rw [substDollar_cons, if_neg hc]

theorem findWrapMatch_cons (c : Char) (l : List Char) :
    findWrapMatch (c :: l) = if c = '<' then takeToGt l else findWrapMatch l := rfl

theorem substDollar_no_dollar (repl b m a : List Char) (h : '$' ∉ repl) :
    substDollar repl b m a = repl := by
  induction repl with
  | nil => rfl
  | cons c rest ih =>
    have hc : c ≠ '$' := fun hcc => h (by simp [hcc])
    rw [substDollar_cons_ne c rest b m a hc, ih fun hm => h (List.mem_cons_of_mem _ hm)]

theorem takeToGt_append (inner post : List Char) (h : '>' ∉ inner) :
    takeToGt (inner ++ '>' :: post) = some inner := by
  induction inner with
  | nil => rw [List.nil_append, takeToGt, if_pos rfl]
  | cons c cs ih =>
    have hc : c ≠ '>' := fun hcc => h (by simp [hcc])
    rw [List.cons_append, takeToGt, if_neg hc, ih fun hm => h (List.mem_cons_of_mem _ hm)]
    rfl

theorem takeToGt_eq_none_iff (l : List Char) : takeToGt l = none ↔ '>' ∉ l := by
  induction l with
  | nil => simp [takeToGt]
  | cons c cs ih =>
    by_cases hc : c = '>'
    · rw [takeToGt, if_pos hc]
      simp [hc]
    · rw [takeToGt, if_neg hc, Option.map_eq_none', ih]
      simp [List.mem_cons, Ne.symm hc]

theorem findWrapMatch_canonical (pre inner post : List Char)
    (hpre : '<' ∉ pre) (hinner : '>' ∉ inner) :
    findWrapMatch (pre ++ '<' :: inner ++ '>' :: post) = some inner := by
  induction pre with
  | nil =>
    show findWrapMatch ('<' :: (inner ++ '>' :: post)) = some inner
    rw [findWrapMatch_cons, if_pos rfl]
    exact takeToGt_append inner post hinner
  | cons c cs ih =>
    have hc : c ≠ '<' := fun hcc => hpre (by simp [hcc])
    show findWrapMatch (c :: (cs ++ '<' :: inner ++ '>' :: post)) = some inner
    rw [findWrapMatch_cons, if_neg hc]
    exact ih fun hm => hpre (List.mem_cons_of_mem _ hm)

theorem findWrapMatch_no_lt (l : List Char) (h : '<' ∉ l) : findWrapMatch l = none := by
  induction l with
  | nil => rfl
  | cons c cs ih =>
    have hc : c ≠ '<' := fun hcc => h (by simp [hcc])
    rw [findWrapMatch_cons, if_neg hc]
    exact ih fun hm => h (List.mem_cons_of_mem _ hm)

theorem findWrapMatch_append_none (u v : List Char) (hu : findWrapMatch u = none)
    (hv1 : '<' ∉ v) (hv2 : '>' ∉ v) : findWrapMatch (u ++ v) = none := by
  induction u with
  | nil => simpa using findWrapMatch_no_lt v hv1
  | cons c cs ih =>
    by_cases hc : c = '<'
    · subst hc
      have h1 : takeToGt cs = none := by
        rw [findWrapMatch_cons, if_pos rfl] at hu
        exact hu
      have h2 : '>' ∉ cs := (takeToGt_eq_none_iff cs).1 h1
      have h3 : '>' ∉ cs ++ v := by
        intro hm
        rcases List.mem_append.1 hm with hm | hm
        exacts [h2 hm, hv2 hm]
      rw [List.cons_append, findWrapMatch_cons, if_pos rfl]
      exact (takeToGt_eq_none_iff (cs ++ v)).2 h3
    · have h1 : findWrapMatch cs = none := by
        rw [findWrapMatch_cons, if_neg hc] at hu
        exact hu
      rw [List.cons_append, findWrapMatch_cons, if_neg hc]
      exact ih h1

theorem jsReplaceAux_hit (before hay needle repl : List Char)
    (h : isPrefixL needle hay = true) :
    jsReplaceAux before hay needle repl =
      before ++ substDollar repl before needle (hay.drop needle.length) ++
        hay.drop needle.length := by
  rw [jsReplaceAux.eq_def, if_pos h]

theorem jsReplaceAux_step (before : List Char) (c : Char) (rest needle repl : List Char)
    (h : isPrefixL needle (c :: rest) = false) :
    jsReplaceAux before (c :: rest) needle repl =
      jsReplaceAux (before ++ [c]) rest needle repl := by
  rw [jsReplaceAux.eq_def, if_neg (by simp [h])]

theorem jsReplaceAux_skip (u : List Char) :
    ∀ (v needle repl before : List Char),
      (∀ i < u.length, isPrefixL needle ((u ++ v).drop i) = false) →
      isPrefixL needle v = true →
      jsReplaceAux before (u ++ v) needle repl =
        (before ++ u) ++ substDollar repl (before ++ u) needle (v.drop needle.length) ++
          v.drop needle.length := by
  induction u with
  | nil =>
    intro v needle repl before hno hv
    rw [List.nil_append, jsReplaceAux_hit before v needle repl hv]
    simp
  | cons c u2 ih =>
    intro v needle repl before hno hv
    have h0 : isPrefixL needle (c :: (u2 ++ v)) = false := by
      have := hno 0 (by simp)
      simpa using this
    rw [List.cons_append, jsReplaceAux_step before c (u2 ++ v) needle repl h0]
    have hno2 : ∀ i < u2.length, isPrefixL needle ((u2 ++ v).drop i) = false := by
      intro i hi
      have := hno (i + 1) (by simpa using Nat.succ_lt_succ hi)
      simpa using this
    rw [ih v needle repl (before ++ [c]) hno2 hv]
    simp

/-! ## Lemmas: the two shapes of the modification step -/

theorem processRecipient_modify (st : MailStore) (wl : String) (gids : List String) (r : String)
    (hskip : _shouldSkipModification (_extractEmailAddress r) wl = false)
    (hgrp : _isUserInAuthorizedGroup st (_extractEmailAddress r) gids = false) :
    _processRecipient st r wl gids = modifyRecipient r (_extractEmailAddress r) := by
  simp [_processRecipient, hskip, hgrp]

theorem processRecipient_skipped (st : MailStore) (wl : String) (gids : List String) (r : String)
    (h : _shouldSkipModification (_extractEmailAddress r) wl = true ∨
      _isUserInAuthorizedGroup st (_extractEmailAddress r) gids = true) :
    _processRecipient st r wl gids = r := by
  rcases h with h | h
  · simp [_processRecipient, h]
  · by_cases h1 : _shouldSkipModification (_extractEmailAddress r) wl <;>
      simp [_processRecipient, h1, h]

theorem mk_ne_empty_of_ne_nil (l : List Char) (h : l ≠ []) : String.mk l ≠ "" := by
  intro h0
  exact h (congrArg String.data h0)

theorem modifyRecipient_bare (r : String) (hne : r ≠ "") (hdollar : '$' ∉ r.data) :
    modifyRecipient r r = r ++ _emailModifier := by
  unfold modifyRecipient
  rw [if_pos hne]
  unfold jsReplace
  rw [jsReplaceAux_hit [] r.data r.data ((r ++ _emailModifier).data)
    ((isPrefixL_iff r.data r.data).2 ⟨[], by simp⟩)]
  rw [List.drop_length]
  have hd : '$' ∉ (r ++ _emailModifier).data := by
    rw [String.data_append]
    intro hm
    rcases List.mem_append.1 hm with hm | hm
    · exact hdollar hm
    · exact absurd hm (by decide)
  rw [substDollar_no_dollar _ _ _ _ hd]
  rw [List.nil_append, List.append_nil]

theorem modifyRecipient_wrapped (pre inner post : List Char)
    (hfirst : ∀ i < pre.length + 1,
      isPrefixL inner ((pre ++ '<' :: inner ++ '>' :: post).drop i) = false)
    (hdollar : '$' ∉ inner) (hne : inner ≠ []) :
    modifyRecipient (String.mk (pre ++ '<' :: inner ++ '>' :: post)) (String.mk inner) =
      String.mk (pre ++ '<' :: (inner ++ _emailModifier.data) ++ '>' :: post) := by
  unfold modifyRecipient
  rw [if_pos (mk_ne_empty_of_ne_nil inner hne)]
  unfold jsReplace
  have hshape : (String.mk (pre ++ '<' :: inner ++ '>' :: post)).data =
      (pre ++ ['<']) ++ (inner ++ '>' :: post) := by simp
  rw [hshape]
  have hno : ∀ i < (pre ++ ['<']).length,
      isPrefixL (String.mk inner).data (((pre ++ ['<']) ++ (inner ++ '>' :: post)).drop i) = false := by
    intro i hi
    have hi2 : i < pre.length + 1 := by simpa using hi
    have := hfirst i hi2
    simpa [List.append_assoc] using this
  have hv : isPrefixL (String.mk inner).data (inner ++ '>' :: post) = true :=
    (isPrefixL_iff inner (inner ++ '>' :: post)).2 ⟨'>' :: post, rfl⟩
  rw [jsReplaceAux_skip (pre ++ ['<']) (inner ++ '>' :: post) (String.mk inner).data
    ((String.mk inner ++ _emailModifier).data) [] hno hv]
  have hdrop : (inner ++ '>' :: post).drop (String.mk inner).data.length = '>' :: post :=
    List.drop_left inner ('>' :: post)
  rw [hdrop]
  have hd : '$' ∉ (String.mk inner ++ _emailModifier).data := by
    rw [String.data_append]
    intro hm
    rcases List.mem_append.1 hm with hm | hm
    · exact hdollar hm
    · exact absurd hm (by decide)
  rw [substDollar_no_dollar _ _ _ _ hd]
  simp [String.data_append]

theorem processRecipient_wrapped (st : MailStore) (wl : String) (gids : List String)
    (pre inner post : List Char) (hpre : '<' ∉ pre) (hinner : '>' ∉ inner)
    (hdollar : '$' ∉ inner)
    (hfirst : ∀ i < pre.length + 1,
      isPrefixL inner ((pre ++ '<' :: inner ++ '>' :: post).drop i) = false)
    (hskip : _shouldSkipModification (String.mk inner) wl = false)
    (hgrp : _isUserInAuthorizedGroup st (String.mk inner) gids = false) :
    _processRecipient st (String.mk (pre ++ '<' :: inner ++ '>' :: post)) wl gids =
      String.mk (pre ++ '<' :: (inner ++ _emailModifier.data) ++ '>' :: post) := by
  have hex : _extractEmailAddress (String.mk (pre ++ '<' :: inner ++ '>' :: post)) =
      String.mk inner := by
    unfold _extractEmailAddress
    rw [show (String.mk (pre ++ '<' :: inner ++ '>' :: post)).data =
      pre ++ '<' :: inner ++ '>' :: post from rfl]
    rw [findWrapMatch_canonical pre inner post hpre hinner]
  have hne : inner ≠ [] := by
    intro h0
    subst h0
    rw [show String.mk ([] : List Char) = "" from rfl] at hskip
    rw [skip_of_empty_extracted wl] at hskip
    exact absurd hskip (by simp)
  rw [processRecipient_modify st wl gids _ (by rw [hex]; exact hskip) (by rw [hex]; exact hgrp)]
  rw [hex]
  exact modifyRecipient_wrapped pre inner post hfirst hdollar hne

theorem processRecipient_bare (st : MailStore) (wl : String) (gids : List String) (r : String)
    (hbare : findWrapMatch r.data = none) (hdollar : '$' ∉ r.data)
    (hskip : _shouldSkipModification r wl = false)
    (hgrp : _isUserInAuthorizedGroup st r gids = false) :
    _processRecipient st r wl gids = r ++ _emailModifier := by
  have hex : _extractEmailAddress r = r := by
    unfold _extractEmailAddress
    rw [hbare]
  have hne : r ≠ "" := by
    intro h0
    subst h0
    rw [skip_of_empty_extracted wl] at hskip
    exact absurd hskip (by simp)
  rw [processRecipient_modify st wl gids r (by rw [hex]; exact hskip) (by rw [hex]; exact hgrp)]
  rw [hex]
  exact modifyRecipient_bare r hne hdollar

/-! ## Theorems: wrapped-form modification (claim C3) -/

/-- Counterexample to claim C3 as stated: for the wrapped recipient whose
display name equals the bracketed address, the replace of the first
occurrence modifies the display name and leaves the bracketed portion
untouched, so the claimed output is not produced. -/
theorem display_name_cex :
    addTestToAddresses plainStore (some ["john@x.com <john@x.com>"]) =
      "john@x.com.test <john@x.com>" ∧
    addTestToAddresses plainStore (some ["john@x.com <john@x.com>"]) ≠
      "john@x.com <john@x.com.test>" :=
  ⟨by decide, by decide⟩

/-- Claim C3 (amended): for a wrapped recipient that no skip rule
exempts, the modification replaces the first occurrence of the extracted
address in the original string; whenever that first occurrence is the
bracketed one (in particular the display name does not contain the
address) and the address is dollar-free, only the bracketed portion is
suffixed and the display name is preserved, as in the John Doe example. -/
theorem wrapped_form_modification (st : MailStore) (pre inner post : List Char)
    (hpre : '<' ∉ pre) (hinner : '>' ∉ inner) (hdollar : '$' ∉ inner)
    (hfirst : ∀ i < pre.length + 1,
      isPrefixL inner ((pre ++ '<' :: inner ++ '>' :: post).drop i) = false)
    (hskip : _shouldSkipModification (String.mk inner) (_getReceivingAddresses st) = false)
    (hgrp : _isUserInAuthorizedGroup st (String.mk inner) (_getReceivingGroupIds st) = false) :
    addTestToAddresses st (some [String.mk (pre ++ '<' :: inner ++ '>' :: post)]) =
      String.mk (pre ++ '<' :: (inner ++ _emailModifier.data) ++ '>' :: post) := by
  rw [addTest_singleton]
  exact processRecipient_wrapped st _ _ pre inner post hpre hinner hdollar hfirst hskip hgrp

/-- Witness for the amended C3 at the concrete example of the claim. -/
theorem wrapped_form_modification_witness :
    addTestToAddresses plainStore (some ["John Doe <john@x.com>"]) =
      "John Doe <john@x.com.test>" := by
  have h := wrapped_form_modification plainStore ("John Doe ".data) ("john@x.com".data) []
    (by decide) (by decide) (by decide) (by decide) (by decide) (by decide)
  have e1 : String.mk ("John Doe ".data ++ '<' :: "john@x.com".data ++ '>' :: []) =
      "John Doe <john@x.com>" := by decide
  have e2 : String.mk ("John Doe ".data ++ '<' ::
      ("john@x.com".data ++ _emailModifier.data) ++ '>' :: []) =
      "John Doe <john@x.com.test>" := by decide
  rw [e1, e2] at h
  exact h

/-! ## Theorems: malformed input (claim C8) -/

/-- Counterexample to claim C8 as stated: a malformed recipient (no at
sign, no brackets) containing a dollar-ampersand sequence is not plainly
suffixed, because the ECMAScript replacement substitutes the matched text
for the dollar-ampersand in the replacement string. -/
theorem malformed_suffix_cex :
    addTestToAddresses plainStore (some ["a$&b"]) = "aa$&bb.test" ∧
    addTestToAddresses plainStore (some ["a$&b"]) ≠ "a$&b" ++ _emailModifier :=
  ⟨by decide, by decide⟩

/-- Claim C8 (amended): for every recipient string on which the bracket
regex fails, the whole string is the extracted address and flows through
the same rule pipeline: it is returned unchanged when a skip rule
applies, and otherwise transformed by the replace-based modification,
which coincides with appending the suffix marker whenever the string is
dollar-free. Totality of every function on the path reflects that no
string input raises. -/
theorem malformed_passthrough (st : MailStore) (wl : String) (gids : List String) (r : String)
    (hm : findWrapMatch r.data = none) :
    _extractEmailAddress r = r ∧
    (_shouldSkipModification r wl = true → _processRecipient st r wl gids = r) ∧
    (_isUserInAuthorizedGroup st r gids = true → _processRecipient st r wl gids = r) ∧
    ('$' ∉ r.data → _shouldSkipModification r wl = false →
      _isUserInAuthorizedGroup st r gids = false →
      _processRecipient st r wl gids = r ++ _emailModifier) := by
  have hex : _extractEmailAddress r = r := by
    unfold _extractEmailAddress
    rw [hm]
  refine ⟨hex, ?_, ?_, ?_⟩
  · intro h
    exact processRecipient_skipped st wl gids r (Or.inl (by rw [hex]; exact h))
  · intro h
    exact processRecipient_skipped st wl gids r (Or.inr (by rw [hex]; exact h))
  · intro hd h1 h2
    exact processRecipient_bare st wl gids r hm hd h1 h2

/-- Witness for the amended C8 on a bracket-free dollar-free string. -/
theorem malformed_passthrough_witness :
    _extractEmailAddress "no-at-sign" = "no-at-sign" ∧
    _processRecipient plainStore "no-at-sign" "" [] = "no-at-sign.test" := by
  have h := malformed_passthrough plainStore "" [] "no-at-sign" (by decide)
  refine ⟨h.1, ?_⟩
  have h4 := h.2.2.2 (by decide) (by decide) (by decide)
  rw [h4]
  decide

/-! ## Lemmas: comma join and split are inverse on comma-free pieces -/

theorem splitCommaAux_nil (acc : List Char) : splitCommaAux [] acc = [acc.reverse] := rfl

theorem splitCommaAux_cons (c : Char) (rest acc : List Char) :
    splitCommaAux (c :: rest) acc =
      if c = ',' then acc.reverse :: splitCommaAux rest []
      else splitCommaAux rest (c :: acc) := by
  rw [splitCommaAux.eq_def]

theorem splitCommaAux_no_comma (x : List Char) :
    ∀ acc, ',' ∉ x → splitCommaAux x acc = [acc.reverse ++ x] := by
  induction x with
  | nil =>
    intro acc h
    rw [splitCommaAux_nil]
    simp
  | cons c cs ih =>
    intro acc h
    have hc : c ≠ ',' := fun hcc => h (by simp [hcc])
    rw [splitCommaAux_cons, if_neg hc, ih (c :: acc) fun hm => h (List.mem_cons_of_mem _ hm)]
    simp

theorem splitCommaAux_split (x : List Char) :
    ∀ (rest acc : List Char), ',' ∉ x →
      splitCommaAux (x ++ ',' :: rest) acc = (acc.reverse ++ x) :: splitCommaAux rest [] := by
  induction x with
  | nil =>
    intro rest acc h
    show splitCommaAux (',' :: rest) acc = _
    rw [splitCommaAux_cons, if_pos rfl]
    simp
  | cons c cs ih =>
    intro rest acc h
    have hc : c ≠ ',' := fun hcc => h (by simp [hcc])
    show splitCommaAux (c :: (cs ++ ',' :: rest)) acc = _
    rw [splitCommaAux_cons, if_neg hc, ih rest (c :: acc) fun hm => h (List.mem_cons_of_mem _ hm)]
    simp

theorem joinCommaL_single (x : List Char) : joinCommaL [x] = x := rfl

theorem joinCommaL_cons2 (x y : List Char) (ys : List (List Char)) :
    joinCommaL (x :: y :: ys) = x ++ ',' :: joinCommaL (y :: ys) := rfl

theorem splitCommaAux_joinCommaL (l : List (List Char)) (hl : l ≠ [])
    (h : ∀ x ∈ l, ',' ∉ x) :
    splitCommaAux (joinCommaL l) [] = l := by
  induction l with
  | nil => cases hl rfl
  | cons x xs ih =>
    cases xs with
    | nil =>
      rw [joinCommaL_single, splitCommaAux_no_comma x [] (h x (by simp))]
      simp
    | cons y ys =>
      rw [joinCommaL_cons2, splitCommaAux_split x (joinCommaL (y :: ys)) [] (h x (by simp))]
      rw [ih (by simp) fun z hz => h z (by simp [hz])]
      simp

theorem jsSplitComma_joinComma (l : List String) (hl : l ≠ [])
    (h : ∀ x ∈ l, ',' ∉ x.data) :
    jsSplitComma (joinComma l) = l := by
  unfold jsSplitComma joinComma
  rw [show (String.mk (joinCommaL (l.map String.data))).data =
    joinCommaL (l.map String.data) from rfl]
  rw [splitCommaAux_joinCommaL (l.map String.data) (by simpa using hl) ?side]
  case side =>
    intro x hx
    obtain ⟨r, hr, rfl⟩ := List.mem_map.1 hx
    exact h r hr
  rw [List.map_map, show String.mk ∘ String.data = id from rfl, List.map_id]

theorem addTest_eq_join (st : MailStore) (rs : List String) (h : rs ≠ []) :
    addTestToAddresses st (some rs) =
      joinComma (rs.map fun r =>
        _processRecipient st r (_getReceivingAddresses st) (_getReceivingGroupIds st)) := by
  cases rs with
  | nil => cases h rfl
  | cons a l => rfl

/-! ## Lemmas: one sanitization pass produces skip-stable recipients -/

theorem processRecipient_idem (st : MailStore) (wl : String) (gids : List String) (r : String)
    (hg : GoodRecipient r) :
    _processRecipient st (_processRecipient st r wl gids) wl gids =
      _processRecipient st r wl gids ∧
    ',' ∉ (_processRecipient st r wl gids).data := by
  obtain ⟨hcomma, hdollar, hshape⟩ := hg
  cases hs : _shouldSkipModification (_extractEmailAddress r) wl with
  | true =>
    rw [processRecipient_skipped st wl gids r (Or.inl hs)]
    exact ⟨processRecipient_skipped st wl gids r (Or.inl hs), hcomma⟩
  | false =>
    cases hgrp : _isUserInAuthorizedGroup st (_extractEmailAddress r) gids with
    | true =>
      rw [processRecipient_skipped st wl gids r (Or.inr hgrp)]
      exact ⟨processRecipient_skipped st wl gids r (Or.inr hgrp), hcomma⟩
    | false =>
      rcases hshape with hbare | ⟨pre, inner, post, hdecomp, hpre, hinner, hfirst⟩
      · -- bare recipient: one pass appends the marker to the whole string
        have hex : _extractEmailAddress r = r := by
          unfold _extractEmailAddress
          rw [hbare]
        rw [hex] at hs hgrp
        rw [processRecipient_bare st wl gids r hbare hdollar hs hgrp]
        have hb2 : findWrapMatch (r ++ _emailModifier).data = none := by
          rw [String.data_append]
          exact findWrapMatch_append_none r.data _emailModifier.data hbare
            (by decide) (by decide)
        have hex2 : _extractEmailAddress (r ++ _emailModifier) = r ++ _emailModifier := by
          unfold _extractEmailAddress
          rw [hb2]
        constructor
        · apply processRecipient_skipped
          left
          apply skip_of_already
          rw [hex2]
          exact (containsL_iff (r ++ _emailModifier).data _emailModifier.data).2
            ⟨r.data, [], by simp [String.data_append]⟩
        · rw [String.data_append]
          intro hm
          rcases List.mem_append.1 hm with hm | hm
          exacts [hcomma hm, absurd hm (by decide)]
      · -- wrapped recipient: one pass suffixes the bracketed portion
        have hr : r = String.mk (pre ++ '<' :: inner ++ '>' :: post) := congrArg String.mk hdecomp
        have hdolInner : '$' ∉ inner := fun hm => hdollar (by rw [hdecomp]; simp [hm])
        have hfirst2 : ∀ i < pre.length + 1,
            isPrefixL inner ((pre ++ '<' :: inner ++ '>' :: post).drop i) = false := by
          intro i hi
          have h2 := hfirst i hi
          rwa [hdecomp] at h2
        have hex : _extractEmailAddress r = String.mk inner := by
          unfold _extractEmailAddress
          rw [hdecomp, findWrapMatch_canonical pre inner post hpre hinner]
        rw [hex] at hs hgrp
        have hres : _processRecipient st r wl gids =
            String.mk (pre ++ '<' :: (inner ++ _emailModifier.data) ++ '>' :: post) := by
          rw [hr]
          exact processRecipient_wrapped st wl gids pre inner post hpre hinner
            hdolInner hfirst2 hs hgrp
        rw [hres]
        have hinner2 : '>' ∉ inner ++ _emailModifier.data := by
          intro hm
          rcases List.mem_append.1 hm with hm | hm
          exacts [hinner hm, absurd hm (by decide)]
        have hex2 : _extractEmailAddress
            (String.mk (pre ++ '<' :: (inner ++ _emailModifier.data) ++ '>' :: post)) =
            String.mk (inner ++ _emailModifier.data) := by
          unfold _extractEmailAddress
          rw [show (String.mk (pre ++ '<' :: (inner ++ _emailModifier.data) ++ '>' :: post)).data =
            pre ++ '<' :: (inner ++ _emailModifier.data) ++ '>' :: post from rfl]
          rw [findWrapMatch_canonical pre (inner ++ _emailModifier.data) post hpre hinner2]
        constructor
        · apply processRecipient_skipped
          left
          apply skip_of_already
          rw [hex2]
          exact (containsL_iff (inner ++ _emailModifier.data) _emailModifier.data).2
            ⟨inner, [], by simp⟩
        · intro hm
          have hm2 : ',' ∈ pre ++ '<' :: (inner ++ _emailModifier.data) ++ '>' :: post := hm
          have hnotest : ',' ∉ _emailModifier.data := by decide
          rw [hdecomp] at hcomma
          simp only [List.mem_append, List.mem_cons] at hm2 hcomma
          tauto

/-! ## Theorems: idempotence of sanitization (claim C10) -/

/-- Counterexample to claim C10 as stated: the wrapped comma-free
recipient whose display name equals its address is modified in the
display name on the first pass, so the second pass still sees a bracketed
address without the marker and appends it again. -/
theorem idempotence_cex :
    addTestToAddresses plainStore (some (jsSplitComma
      (addTestToAddresses plainStore (some ["john@x.com <john@x.com>"])))) ≠
      addTestToAddresses plainStore (some ["john@x.com <john@x.com>"]) := by decide

/-- Claim C10 (amended): with the store fixed, addTestToAddresses is
idempotent across the comma split of its own output for recipient lists
whose members are comma-free, dollar-free and either bare or in canonical
wrapped form with the address occurring first at its bracketed position:
every recipient modified in the first pass then carries the marker in its
extracted address and is skipped, and every skipped recipient is skipped
again. -/
theorem addTest_idempotent (st : MailStore) (rs : List String)
    (h : ∀ r ∈ rs, GoodRecipient r) :
    addTestToAddresses st (some (jsSplitComma (addTestToAddresses st (some rs)))) =
      addTestToAddresses st (some rs) := by
  cases rs with
  | nil =>
    show addTestToAddresses st (some (jsSplitComma "")) = ""
    rw [show jsSplitComma "" = [""] from rfl, addTest_singleton]
    apply processRecipient_skipped
    left
    rw [show _extractEmailAddress "" = "" from rfl]
    exact skip_of_empty_extracted _
  | cons r0 rs0 =>
    have hidem : ∀ r ∈ r0 :: rs0,
        _processRecipient st (_processRecipient st r (_getReceivingAddresses st)
          (_getReceivingGroupIds st)) (_getReceivingAddresses st) (_getReceivingGroupIds st) =
          _processRecipient st r (_getReceivingAddresses st) (_getReceivingGroupIds st) ∧
        ',' ∉ (_processRecipient st r (_getReceivingAddresses st)
          (_getReceivingGroupIds st)).data :=
      fun r hr => processRecipient_idem st _ _ r (h r hr)
    rw [addTest_eq_join st (r0 :: rs0) (by simp)]
    rw [jsSplitComma_joinComma _ (by simp) ?comfree]
    case comfree =>
      intro x hx
      obtain ⟨r, hr, rfl⟩ := List.mem_map.1 hx
      exact (hidem r hr).2
    rw [addTest_eq_join st _ (by simp)]
    congr 1
    rw [List.map_map]
    refine List.map_congr_left fun r hr => ?_
    exact (hidem r hr).1

/-- Witness for the amended C10 on two bare recipients against the plain
store. -/
theorem addTest_idempotent_witness :
    addTestToAddresses plainStore (some (jsSplitComma
      (addTestToAddresses plainStore (some ["a@x.com", "b@x.com"])))) =
      addTestToAddresses plainStore (some ["a@x.com", "b@x.com"]) := by
  apply addTest_idempotent
  intro r hr
  rcases List.mem_cons.1 hr with rfl | hr
  · exact ⟨by decide, by decide, Or.inl (by decide)⟩
  · rcases List.mem_cons.1 hr with rfl | hr
    · exact ⟨by decide, by decide, Or.inl (by decide)⟩
    · cases hr

end Configurator
